import Mathlib

/-!
Verification of `code-organizer.py` (class `CodeOrganizer`).

Strings are modelled as `List Char` (`Str`).  Python's `re` machinery is
embedded by hand: the fixed category regexes are alternations of literal
words surrounded by word boundaries, so each is modelled by its list of
literal alternatives plus an explicit boundary-aware search; ASCII is
assumed for case mapping and whitespace (the transcripts the tool is
written for are ASCII).  All definitions are computable and structurally
recursive (loops that consume the input carry an explicit fuel argument
equal to the input length plus one, which is always sufficient because
every iteration consumes at least one character).
-/

namespace CodeOrganizer

abbrev Str := List Char

/-- Coercion from Lean string literals to the `List Char` model. -/
def str (s : String) : Str := s.data

/-- Python `str.lower` (ASCII). -/
def lowerStr (s : Str) : Str := s.map Char.toLower

/-- Regex word character `\w` : letters, digits, underscore (ASCII). -/
def wordChar (c : Char) : Bool := c.isAlpha || c.isDigit || c == '_'

/-- Characters admitted inside a keyword token: `[A-Za-z_]`. -/
def tokenChar (c : Char) : Bool := c.isAlpha || c == '_'

/-- Python `str.strip` whitespace set (ASCII part). -/
def pyWhite (c : Char) : Bool :=
  c == ' ' || c == '\t' || c == '\n' || c == '\r' || c == '\x0b' || c == '\x0c'

/-- Python `str.strip()`: drop leading and trailing whitespace. -/
def pyStrip (s : Str) : Str :=
  ((s.dropWhile pyWhite).reverse.dropWhile pyWhite).reverse

/-- Python `str.split(sep)` for a one-character separator. -/
def splitOnChar (sep : Char) : Str → List Str
  | [] => [[]]
  | c :: rest =>
    if c == sep then [] :: splitOnChar sep rest
    else
      match splitOnChar sep rest with
      | s :: ss => (c :: s) :: ss
      | [] => [[c]]

/-- Test whether the first argument is an initial segment of the second. -/
def leadsWith : Str → Str → Bool
  | [], _ => true
  | _ :: _, [] => false
  | n :: ns, h :: hs => n == h && leadsWith ns hs

/-- Python substring containment `needle in hay`. -/
def containsSub (needle : Str) : Str → Bool
  | [] => leadsWith needle []
  | h :: hs => leadsWith needle (h :: hs) || containsSub needle hs

/-- The `component_patterns` table of the source, in insertion order.
Each regex `\b(...)\b` is an alternation of literal words; the value is
the list of alternatives.  Note that the source regex `entities?` makes
only the final `s` optional, so it matches `entitie` and `entities` but
not `entity`; similarly `utils?` matches `util`/`utils`, and so on. -/
def component_patterns : List (Str × List Str) :=
  [ (str "utils",    [str "util", str "utils", str "helper", str "helpers", str "common"]),
    (str "models",   [str "model", str "models", str "schema", str "schemas",
                      str "entitie", str "entities"]),
    (str "services", [str "service", str "api", str "client", str "adapter"]),
    (str "tests",    [str "test", str "spec"]),
    (str "config",   [str "config", str "setting", str "settings"]) ]

/-- Word boundary after an alternative `w` matched at the head of `s`:
the character following the match, if any, is not a word character. -/
def boundaryAfter (w s : Str) : Bool :=
  match s.drop w.length with
  | [] => true
  | d :: _ => !wordChar d

/-- Scan of `re.search` for an alternation of literal words with `\b` on
both sides: at every position, some alternative matches with a non-word
character (or an edge) on each side.  `prev` is the character before the
current position. -/
def searchFrom (alts : List Str) : Option Char → Str → Bool
  | _, [] => false
  | prev, c :: rest =>
    ((match prev with | none => true | some p => !wordChar p) &&
      alts.any (fun w => leadsWith w (c :: rest) && boundaryAfter w (c :: rest)))
    || searchFrom alts (some c) rest

/-- Python `re.search(pattern, s, re.IGNORECASE)` for one of the five
category patterns: case-insensitivity is modelled by lowering the
haystack (the alternatives are lowercase literals). -/
def patSearch (alts : List Str) (s : Str) : Bool := searchFrom alts none (lowerStr s)

/-- Hint test of `determine_category`, line 65 of the source:
`any(f'#{folder}' in line.lower() for folder in self.component_patterns.keys())`. -/
def hintFires (line : Str) : Bool :=
  component_patterns.any (fun pr => containsSub ('#' :: pr.1) (lowerStr line))

/-- Hint result of `determine_category`, line 66 of the source:
`line.split('#')[1].strip()`.  When the scan fires the line contains a
hash, so the split has at least two fields and the `getD` default is
never used; `getD` merely keeps the function total. -/
def hintValue (line : Str) : Str := pyStrip (List.getD (splitOnChar '#' line) 1 [])

/-- An extracted code block, source lines 35-40.  The Python dict also
carries an md5 content hash under the key `hash`; no claim mentions it
and it is not modelled. -/
structure Block where
  language : Str
  content : Str
  keywords : List Str
deriving DecidableEq

/-- Python `sep.join(xs)`. -/
def joinSep (sep : Str) : List Str → Str
  | [] => []
  | [x] => x
  | x :: y :: rest => x ++ sep ++ joinSep sep (y :: rest)

/-- The space-separated join `' '.join(block['keywords'])`. -/
def joinedKeywords (b : Block) : Str := joinSep (str " ") b.keywords

/-- The classifier `determine_category`, source lines 61-74: first the
explicit hint scan over the lines of the content, then the keyword
pattern table in insertion order, then the language fallback. -/
def determine_category (b : Block) : Str :=
  match (splitOnChar '\n' b.content).find? hintFires with
  | some line => hintValue line
  | none =>
    match component_patterns.find? (fun pr => patSearch pr.2 (joinedKeywords b)) with
    | some pr => pr.1
    | none => str "uncategorized/" ++ b.language

/-- Spec §4.3 step 1 wording for the hint result: the hash-delimited
token following the first hash of the line (everything after the first
hash up to the next hash or the end of the line), trimmed of
surrounding whitespace, in its original case. -/
def specHintToken (line : Str) : Str :=
  pyStrip (((line.dropWhile (fun c => c != '#')).drop 1).takeWhile (fun c => c != '#'))

theorem find?_eq_some_of_split {α : Type} {p : α → Bool} (pre : List α) (l : α) (post : List α)
    (hpre : ∀ x ∈ pre, p x = false) (hl : p l = true) :
    (pre ++ l :: post).find? p = some l := by
  induction pre with
  | nil => simp [List.find?, hl]
  | cons a as ih =>
    have ha := hpre a (List.mem_cons_self a as)
    simpa [List.find?, ha] using ih (fun x hx => hpre x (List.mem_cons_of_mem a hx))

theorem splitOnChar_ne_nil (sep : Char) (s : Str) : splitOnChar sep s ≠ [] := by
  cases s with
  | nil => simp [splitOnChar]
  | cons c rest =>
    by_cases h : c = sep
    · simp [splitOnChar, h]
    · simp only [splitOnChar, h]
      cases hs : splitOnChar sep rest with
      | nil => simp [h]
      | cons a as => simp [h]

theorem splitOnChar_head (sep : Char) (s : Str) :
    List.getD (splitOnChar sep s) 0 [] = s.takeWhile (fun c => c != sep) := by
  induction s with
  | nil => simp [splitOnChar, List.takeWhile]
  | cons c rest ih =>
    by_cases h : c = sep
    · simp [splitOnChar, h, List.takeWhile]
    · simp only [splitOnChar, h]
      cases hs : splitOnChar sep rest with
      | nil => exact absurd hs (splitOnChar_ne_nil sep rest)
      | cons a as =>
        rw [hs] at ih
        have hcs : (c != sep) = true := bne_iff_ne.mpr h
        simp [h, List.takeWhile, hcs, ← ih]

theorem splitOnChar_getD_one (line : Str) :
    List.getD (splitOnChar '#' line) 1 [] =
      ((line.dropWhile (fun c => c != '#')).drop 1).takeWhile (fun c => c != '#') := by
  induction line with
  | nil => simp [splitOnChar]
  | cons c rest ih =>
    by_cases h : c = '#'
    · simp only [splitOnChar, h]
      simp only [List.dropWhile, bne_self_eq_false, Bool.false_eq_true, if_false]
      simpa [List.getD] using splitOnChar_head '#' rest
    · simp only [splitOnChar, h]
      cases hs : splitOnChar '#' rest with
      | nil => exact absurd hs (splitOnChar_ne_nil '#' rest)
      | cons a as =>
        rw [hs] at ih
        have hcs : (c != '#') = true := bne_iff_ne.mpr h
        have hd : List.dropWhile (fun c => c != '#') (c :: rest) =
            List.dropWhile (fun c => c != '#') rest := by
          simp [List.dropWhile, hcs]
        simp only [hd] at *
        simpa [h, List.getD] using ih

theorem hintValue_eq_specHintToken (line : Str) : hintValue line = specHintToken line := by
  unfold hintValue specHintToken
  rw [splitOnChar_getD_one]

/-- C1: for a block whose content contains a line firing the explicit
hint scan, the classifier returns the hint result of the first firing
line in document order, even when the derived keywords also match some
category pattern; the pattern table is never consulted. -/
theorem claim_C1_hint_priority (b : Block) (pre post : List Str) (line : Str)
    (hsplit : splitOnChar '\n' b.content = pre ++ line :: post)
    (hpre : ∀ l ∈ pre, hintFires l = false)
    (hline : hintFires line = true)
    (_hpat : ∃ pr ∈ component_patterns, patSearch pr.2 (joinedKeywords b) = true) :
    determine_category b = hintValue line := by
  unfold determine_category
  rw [hsplit, find?_eq_some_of_split pre line post hpre hline]

theorem claim_C1_hint_priority_witness :
    (splitOnChar '\n' (str "a = 1\n#tests\nrest") = [str "a = 1", str "#tests", str "rest"]) ∧
    hintFires (str "#tests") = true ∧
    (∃ pr ∈ component_patterns,
      patSearch pr.2 (joinedKeywords ⟨str "python", str "a = 1\n#tests\nrest", [str "model"]⟩) = true) ∧
    determine_category ⟨str "python", str "a = 1\n#tests\nrest", [str "model"]⟩ =
      hintValue (str "#tests") :=
  ⟨by decide, by decide, by decide,
    claim_C1_hint_priority ⟨str "python", str "a = 1\n#tests\nrest", [str "model"]⟩
      [str "a = 1"] [str "rest"] (str "#tests")
      (by decide) (by decide) (by decide) (by decide)⟩

/-- C4: when the hint scan fires, the returned category is the text of
the first firing line between its first hash and its second hash (or
the end of the line), trimmed of surrounding whitespace, verbatim in
its original case (no lowercasing, no normalization to the canonical
category name). -/
theorem claim_C4_hint_verbatim (b : Block) (pre post : List Str) (line : Str)
    (hsplit : splitOnChar '\n' b.content = pre ++ line :: post)
    (hpre : ∀ l ∈ pre, hintFires l = false)
    (hline : hintFires line = true) :
    determine_category b = specHintToken line := by
  unfold determine_category
  rw [hsplit, find?_eq_some_of_split pre line post hpre hline]
  exact hintValue_eq_specHintToken line

theorem claim_C4_hint_verbatim_witness :
    hintFires (str "x#TESTS") = true ∧
    specHintToken (str "x#TESTS") = str "TESTS" ∧
    determine_category ⟨str "python", str "x#TESTS", []⟩ = str "TESTS" :=
  ⟨by decide, by decide,
    (claim_C4_hint_verbatim ⟨str "python", str "x#TESTS", []⟩ [] [] (str "x#TESTS")
      (by decide) (by decide) (by decide)).trans (by decide)⟩

/-- C5: the classifier is total; for a block with no firing hint line
and no pattern match on the joined keywords it returns exactly the
string `uncategorized/` followed by the block's language tag. -/
theorem claim_C5_fallback (b : Block)
    (hno : ∀ l ∈ splitOnChar '\n' b.content, hintFires l = false)
    (hpat : ∀ pr ∈ component_patterns, patSearch pr.2 (joinedKeywords b) = false) :
    determine_category b = str "uncategorized/" ++ b.language := by
  unfold determine_category
  have h1 : (splitOnChar '\n' b.content).find? hintFires = none := by
    rw [List.find?_eq_none]
    intro l hl
    simp [hno l hl]
  have h2 : component_patterns.find? (fun pr => patSearch pr.2 (joinedKeywords b)) = none := by
    rw [List.find?_eq_none]
    intro pr hpr
    simp [hpat pr hpr]
  rw [h1, h2]

theorem claim_C5_fallback_witness :
    (∀ l ∈ splitOnChar '\n' (str "zzz = qqq"), hintFires l = false) ∧
    (∀ pr ∈ component_patterns,
      patSearch pr.2 (joinedKeywords ⟨str "ruby", str "zzz = qqq", [str "zzz", str "qqq"]⟩) = false) ∧
    determine_category ⟨str "ruby", str "zzz = qqq", [str "zzz", str "qqq"]⟩ =
      str "uncategorized/ruby" :=
  ⟨by decide, by decide,
    (claim_C5_fallback ⟨str "ruby", str "zzz = qqq", [str "zzz", str "qqq"]⟩
      (by decide) (by decide)).trans (by decide)⟩

/-- Python `str.isupper()` on a token drawn from `[A-Za-z_]*`: at least
one cased (here: alphabetic) character, and every cased character is
uppercase.  A token of underscores only is not `isupper`. -/
def pyIsUpper (t : Str) : Bool :=
  t.any (fun c => c.isAlpha) && t.all (fun c => !c.isAlpha || c.isUpper)

/-- Token scan of `re.findall(r'\b([A-Za-z_]{3,})\b', code)`, source
line 78.  A match of that regex is a maximal run of `[A-Za-z_]`
characters of length at least 3 whose neighbouring characters (when
present) are not word characters: a shorter sub-run cannot match
because the character next to it is a word character, so `\b` fails
there.  The scanner walks the text, carrying the word-character status
of the previous character; on a token character it consumes the whole
run and emits it when the length and both boundaries are good.  `fuel`
decreases at every step and each step consumes at least one character,
so `length + 1` fuel is always enough. -/
def tokensAux : Nat → Bool → Str → List Str
  | 0, _, _ => []
  | _ + 1, _, [] => []
  | fuel + 1, prevW, c :: rest =>
    if tokenChar c then
      let tok := c :: rest.takeWhile tokenChar
      let ok := !prevW && decide (3 ≤ tok.length) &&
        (match rest.dropWhile tokenChar with | [] => true | d :: _ => !wordChar d)
      (if ok then [tok] else []) ++ tokensAux fuel true (rest.dropWhile tokenChar)
    else
      tokensAux fuel (wordChar c) rest

/-- All regex matches of the identifier pattern in `code`, left to
right. -/
def pyTokens (code : Str) : List Str := tokensAux (code.length + 1) false code

/-- Python `list(set(xs))`.  CPython iterates the set in an unspecified
order; the model fixes first-occurrence order (spec §9 records this
nondeterminism and asks reimplementations to pick a deterministic
order). -/
def dedupAux : List Str → List Str → List Str
  | _, [] => []
  | seen, x :: xs => if x ∈ seen then dedupAux seen xs else x :: dedupAux (x :: seen) xs

/-- The keyword deriver `extract_keywords`, source lines 76-79:
`findall`, drop `isupper` tokens, lowercase, deduplicate. -/
def extract_keywords (code : Str) : List Str :=
  dedupAux [] (((pyTokens code).filter (fun t => !pyIsUpper t)).map lowerStr)

/-- Left word boundary for an occurrence preceded by `pre`, inside a
scan whose previous character has word-status `b`: either the
occurrence is at the very start and the previous character is not a
word character, or `pre` ends in a non-word character. -/
def LeftBoundary (b : Bool) (pre : Str) : Prop :=
  (pre = [] ∧ b = false) ∨ (∃ p c, pre = p ++ [c] ∧ wordChar c = false)

/-- Right word boundary for an occurrence followed by `post`. -/
def RightBoundary (post : Str) : Prop :=
  post = [] ∨ ∃ d q, post = d :: q ∧ wordChar d = false

/-- Occurrence of `w` in `s` as an identifier-pattern match, relative
to previous-character word-status `b`. -/
def SpecTokenAux (b : Bool) (s w : Str) : Prop :=
  ∃ pre post, s = pre ++ w ++ post ∧ w.all tokenChar = true ∧ 3 ≤ w.length ∧
    LeftBoundary b pre ∧ RightBoundary post

/-- Spec §4.2 wording: `w` occurs in `code` as a run of alphabetic and
underscore characters of length at least 3, delimited by word
boundaries. -/
def SpecTokenAt (code w : Str) : Prop := SpecTokenAux false code w

theorem takeWhile_all (p : Char → Bool) : ∀ s : Str, (s.takeWhile p).all p = true := by
  intro s
  induction s with
  | nil => rfl
  | cons c rest ih =>
    by_cases h : p c = true
    · simp [List.takeWhile, h, ih]
    · simp [List.takeWhile, Bool.of_not_eq_true h]

theorem takeWhile_of_all_append (p : Char → Bool) (xs post : Str)
    (hxs : xs.all p = true)
    (hpost : post = [] ∨ ∃ d q, post = d :: q ∧ p d = false) :
    (xs ++ post).takeWhile p = xs ∧ (xs ++ post).dropWhile p = post := by
  induction xs with
  | nil =>
    constructor
    · cases hpost with
      | inl h => simp [h]
      | inr h =>
        obtain ⟨d, q, rfl, hd⟩ := h
        simp [List.takeWhile, hd]
    · cases hpost with
      | inl h => simp [h]
      | inr h =>
        obtain ⟨d, q, rfl, hd⟩ := h
        simp [List.dropWhile, hd]
  | cons x xs ih =>
    simp only [List.all_cons, Bool.and_eq_true] at hxs
    have := ih hxs.2
    simp [List.takeWhile, List.dropWhile, hxs.1, this.1, this.2]

theorem takeWhile_append_stop (p : Char → Bool) (ys : Str) (c : Char) (hc : p c = false) :
    ∀ xs : Str, ∃ l, xs = (xs ++ c :: ys).takeWhile p ++ l ∧
      (xs ++ c :: ys).dropWhile p = l ++ c :: ys := by
  intro xs
  induction xs with
  | nil => exact ⟨[], by simp [List.takeWhile, hc], by simp [List.dropWhile, hc]⟩
  | cons x xs ih =>
    cases hx : p x with
    | true =>
      obtain ⟨l, h1, h2⟩ := ih
      refine ⟨l, ?_, ?_⟩
      · have ht : List.takeWhile p (x :: (xs ++ c :: ys)) =
            x :: List.takeWhile p (xs ++ c :: ys) := by simp [List.takeWhile, hx]
        rw [List.cons_append, ht, List.cons_append]
        exact congrArg (x :: ·) h1
      · have hd : List.dropWhile p (x :: (xs ++ c :: ys)) =
            List.dropWhile p (xs ++ c :: ys) := by simp [List.dropWhile, hx]
        rw [List.cons_append, hd, h2]
    | false =>
      refine ⟨x :: xs, ?_, ?_⟩
      · simp [List.takeWhile, hx]
      · simp [List.dropWhile, hx]

theorem tokenChar_word {c : Char} (h : tokenChar c = true) : wordChar c = true := by
  unfold tokenChar at h
  unfold wordChar
  rcases Bool.or_eq_true_iff.mp h with h1 | h1
  · simp [h1]
  · simp [h1]

theorem tokenChar_of_not_word {c : Char} (h : wordChar c = false) : tokenChar c = false := by
  cases ht : tokenChar c with
  | false => rfl
  | true => rw [tokenChar_word ht] at h; exact absurd h (by simp)

theorem length_dropWhile_le (p : Char → Bool) (l : Str) :
    (l.dropWhile p).length ≤ l.length := by
  induction l with
  | nil => simp [List.dropWhile]
  | cons c rest ih =>
    cases hc : p c with
    | true => simp only [List.dropWhile, hc]; exact Nat.le_succ_of_le ih
    | false => simp [List.dropWhile, hc]

theorem tokensAux_cons_tok (fuel : Nat) (b : Bool) (c : Char) (rest : Str)
    (hc : tokenChar c = true) :
    tokensAux (fuel + 1) b (c :: rest) =
      (if (!b && decide (3 ≤ (c :: rest.takeWhile tokenChar).length) &&
          (match rest.dropWhile tokenChar with | [] => true | d :: _ => !wordChar d))
        then [c :: rest.takeWhile tokenChar] else []) ++
        tokensAux fuel true (rest.dropWhile tokenChar) := by
  simp [tokensAux, hc]

theorem tokensAux_cons_other (fuel : Nat) (b : Bool) (c : Char) (rest : Str)
    (hc : tokenChar c = false) :
    tokensAux (fuel + 1) b (c :: rest) = tokensAux fuel (wordChar c) rest := by
  simp [tokensAux, hc]

theorem mem_tokensAux (fuel : Nat) : ∀ (b : Bool) (s w : Str), s.length < fuel →
    (w ∈ tokensAux fuel b s ↔ SpecTokenAux b s w) := by
  induction fuel with
  | zero => exact fun b s w h => absurd h (Nat.not_lt_zero _)
  | succ fuel ih =>
    intro b s w hlen
    cases s with
    | nil =>
      simp only [tokensAux, List.not_mem_nil, false_iff]
      rintro ⟨pre, post, heq, _, hw3, _, _⟩
      have := congrArg List.length heq
      simp only [List.length_nil, List.length_append] at this
      omega
    | cons c rest =>
      simp only [List.length_cons] at hlen
      cases hc : tokenChar c with
      | false =>
        rw [tokensAux_cons_other fuel b c rest hc, ih (wordChar c) rest w (by omega)]
        constructor
        · rintro ⟨pre, post, heq, hall, h3, hleft, hright⟩
          refine ⟨c :: pre, post, by rw [heq]; simp, hall, h3, ?_, hright⟩
          rcases hleft with ⟨hpe, hb⟩ | ⟨p, c', hpe, hc'⟩
          · exact Or.inr ⟨[], c, by simp [hpe], hb⟩
          · exact Or.inr ⟨c :: p, c', by simp [hpe], hc'⟩
        · rintro ⟨pre, post, heq, hall, h3, hleft, hright⟩
          cases pre with
          | nil =>
            cases w with
            | nil => simp at h3
            | cons w0 w' =>
              simp only [List.nil_append, List.cons_append, List.cons.injEq] at heq
              rw [List.all_cons, Bool.and_eq_true] at hall
              have hcw : tokenChar c = true := by rw [heq.1]; exact hall.1
              rw [hcw] at hc
              exact absurd hc (by simp)
          | cons a pre₂ =>
            simp only [List.cons_append, List.cons.injEq] at heq
            refine ⟨pre₂, post, heq.2, hall, h3, ?_, hright⟩
            rcases hleft with ⟨hpe, _⟩ | ⟨p, c', hpe, hc'⟩
            · exact absurd hpe (by simp)
            · cases p with
              | nil =>
                simp only [List.nil_append, List.cons.injEq] at hpe
                refine Or.inl ⟨hpe.2, ?_⟩
                rw [heq.1, hpe.1]
                exact hc'
              | cons p0 p' =>
                simp only [List.cons_append, List.cons.injEq] at hpe
                exact Or.inr ⟨p', c', hpe.2, hc'⟩
      | true =>
        rw [tokensAux_cons_tok fuel b c rest hc]
        have hdrop : (rest.dropWhile tokenChar).length < fuel :=
          Nat.lt_of_le_of_lt (length_dropWhile_le tokenChar rest) (by omega)
        have hmem : ∀ x : Str, x ∈ (if (!b && decide (3 ≤ (c :: rest.takeWhile tokenChar).length) &&
            (match rest.dropWhile tokenChar with | [] => true | d :: _ => !wordChar d))
            then [c :: rest.takeWhile tokenChar] else []) ++
            tokensAux fuel true (rest.dropWhile tokenChar) ↔
            (((!b && decide (3 ≤ (c :: rest.takeWhile tokenChar).length) &&
            (match rest.dropWhile tokenChar with | [] => true | d :: _ => !wordChar d)) = true
              ∧ x = c :: rest.takeWhile tokenChar)
            ∨ x ∈ tokensAux fuel true (rest.dropWhile tokenChar)) := by
          intro x
          cases hok : (!b && decide (3 ≤ (c :: rest.takeWhile tokenChar).length) &&
            (match rest.dropWhile tokenChar with | [] => true | d :: _ => !wordChar d)) with
          | true => simp
          | false => simp
        rw [hmem w, ih true (rest.dropWhile tokenChar) w hdrop]
        constructor
        · rintro (⟨hok, rfl⟩ | hrec)
          · rw [Bool.and_eq_true, Bool.and_eq_true] at hok
            obtain ⟨⟨hb, hn3⟩, hrb⟩ := hok
            refine ⟨[], rest.dropWhile tokenChar, ?_, ?_, ?_, ?_, ?_⟩
            · simp [List.takeWhile_append_dropWhile]
            · rw [List.all_cons, Bool.and_eq_true]
              exact ⟨hc, takeWhile_all tokenChar rest⟩
            · exact of_decide_eq_true hn3
            · exact Or.inl ⟨rfl, by simpa using hb⟩
            · cases hr : rest.dropWhile tokenChar with
              | nil => exact Or.inl rfl
              | cons d q =>
                rw [hr] at hrb
                exact Or.inr ⟨d, q, rfl, by simpa using hrb⟩
          · obtain ⟨pre', post', heq', hall', h3', hleft', hright'⟩ := hrec
            rcases hleft' with ⟨_, hb⟩ | ⟨p, c', hpe, hc'⟩
            · exact absurd hb (by simp)
            · refine ⟨(c :: rest.takeWhile tokenChar) ++ pre', post', ?_, hall', h3', ?_, hright'⟩
              · have hcat : (c :: rest.takeWhile tokenChar) ++ rest.dropWhile tokenChar
                    = c :: rest := by simp [List.takeWhile_append_dropWhile]
                rw [← hcat, heq']
                simp [List.append_assoc]
              · exact Or.inr ⟨(c :: rest.takeWhile tokenChar) ++ p, c',
                  by rw [hpe, List.append_assoc], hc'⟩
        · rintro ⟨pre, post, heq, hall, h3, hleft, hright⟩
          cases pre with
          | nil =>
            cases w with
            | nil => simp at h3
            | cons w0 w' =>
              simp only [List.nil_append, List.cons_append, List.cons.injEq] at heq
              rw [List.all_cons, Bool.and_eq_true] at hall
              have hsplit := takeWhile_of_all_append tokenChar w' post hall.2 ?hpost
              case hpost =>
                rcases hright with h | ⟨d, q, hpq, hd⟩
                · exact Or.inl h
                · exact Or.inr ⟨d, q, hpq, tokenChar_of_not_word hd⟩
              rw [heq.2]
              refine Or.inl ⟨?_, ?_⟩
              · rw [Bool.and_eq_true, Bool.and_eq_true]
                refine ⟨⟨?_, ?_⟩, ?_⟩
                · rcases hleft with ⟨_, hb⟩ | ⟨p, c', hpe, _⟩
                  · simp [hb]
                  · exact absurd hpe (by simp)
                · rw [hsplit.1, decide_eq_true_iff]
                  simp only [List.length_cons] at h3 ⊢
                  omega
                · rw [hsplit.2]
                  rcases hright with h | ⟨d, q, hpq, hd⟩
                  · rw [h]
                  · rw [hpq]
                    simp [hd]
              · rw [hsplit.1, heq.1]
          | cons a pre₂ =>
            simp only [List.cons_append, List.cons.injEq] at heq
            rcases hleft with ⟨hpe, _⟩ | ⟨p, c', hpe, hc'⟩
            · exact absurd hpe (by simp)
            · cases p with
              | nil =>
                simp only [List.nil_append, List.cons.injEq] at hpe
                rw [← hpe.1, ← heq.1, tokenChar_word hc] at hc'
                exact absurd hc' (by simp)
              | cons p0 p' =>
                simp only [List.cons_append, List.cons.injEq] at hpe
                obtain ⟨l, hl1, hl2⟩ := takeWhile_append_stop tokenChar (w ++ post) c'
                  (tokenChar_of_not_word hc') p'
                have hrest : rest = p' ++ c' :: (w ++ post) := by
                  rw [heq.2, hpe.2]
                  simp [List.append_assoc]
                refine Or.inr ⟨l ++ [c'], post, ?_, hall, h3, ?_, hright⟩
                · rw [hrest, hl2]
                  simp [List.append_assoc]
                · exact Or.inr ⟨l, c', rfl, hc'⟩

theorem mem_dedupAux : ∀ (l seen : List Str) (x : Str),
    x ∈ dedupAux seen l ↔ x ∈ l ∧ x ∉ seen := by
  intro l
  induction l with
  | nil => simp [dedupAux]
  | cons a as ih =>
    intro seen x
    by_cases ha : a ∈ seen
    · simp only [dedupAux, if_pos ha]
      rw [ih seen x]
      constructor
      · rintro ⟨h1, h2⟩
        exact ⟨List.mem_cons_of_mem a h1, h2⟩
      · rintro ⟨h1, h2⟩
        rcases List.mem_cons.mp h1 with rfl | h1
        · exact absurd ha h2
        · exact ⟨h1, h2⟩
    · simp only [dedupAux, if_neg ha]
      rw [List.mem_cons, ih (a :: seen) x]
      constructor
      · rintro (rfl | ⟨h1, h2⟩)
        · exact ⟨List.mem_cons_self _ _, ha⟩
        · exact ⟨List.mem_cons_of_mem a h1, fun hx => h2 (List.mem_cons_of_mem a hx)⟩
      · rintro ⟨h1, h2⟩
        by_cases hxa : x = a
        · exact Or.inl hxa
        · rcases List.mem_cons.mp h1 with h | h
          · exact absurd h hxa
          · exact Or.inr ⟨h, fun hx => (List.mem_cons.mp hx).elim hxa h2⟩

theorem nodup_dedupAux : ∀ (l seen : List Str), (dedupAux seen l).Nodup := by
  intro l
  induction l with
  | nil => intro seen; simp [dedupAux]
  | cons a as ih =>
    intro seen
    by_cases ha : a ∈ seen
    · simp only [dedupAux, if_pos ha]
      exact ih seen
    · simp only [dedupAux, if_neg ha]
      refine List.nodup_cons.mpr ⟨fun hmem => ?_, ih (a :: seen)⟩
      exact ((mem_dedupAux as (a :: seen) a).mp hmem).2 (List.mem_cons_self a seen)

/-- C6: a string is in `extract_keywords code` exactly when it is the
lowercasing of some occurrence in `code` of the identifier pattern (a
run of alphabetic and underscore characters, length at least 3,
delimited by word boundaries) that is not entirely uppercase in its
original form (Python `isupper`: every alphabetic character uppercase
and at least one present); and each qualifying token appears only once
in the result. -/
theorem claim_C6_keywords (code t : Str) :
    (t ∈ extract_keywords code ↔
      ∃ w, SpecTokenAt code w ∧ pyIsUpper w = false ∧ t = lowerStr w) ∧
    (extract_keywords code).Nodup := by
  constructor
  · unfold extract_keywords
    rw [mem_dedupAux _ [] t]
    simp only [List.not_mem_nil, not_false_iff, and_true]
    rw [List.mem_map]
    constructor
    · rintro ⟨w, hw, rfl⟩
      rw [List.mem_filter] at hw
      have hs := (mem_tokensAux (code.length + 1) false code w (Nat.lt_succ_self _)).mp hw.1
      exact ⟨w, hs, by simpa using hw.2, rfl⟩
    · rintro ⟨w, hspec, hup, rfl⟩
      refine ⟨w, ?_, rfl⟩
      rw [List.mem_filter]
      exact ⟨(mem_tokensAux (code.length + 1) false code w (Nat.lt_succ_self _)).mpr hspec,
        by simp [hup]⟩
  · exact nodup_dedupAux _ []

/-- Decimal digit character. -/
def digitToChar : Nat → Char
  | 0 => '0' | 1 => '1' | 2 => '2' | 3 => '3' | 4 => '4'
  | 5 => '5' | 6 => '6' | 7 => '7' | 8 => '8' | _ => '9'

/-- Numeric value of a decimal digit character. -/
def charVal (c : Char) : Nat := c.toNat - 48

/-- Python `str(n)` for a natural number, as a character list; fueled
structural recursion, `n + 1` fuel always suffices. -/
def natToStrAux : Nat → Nat → Str
  | 0, _ => []
  | fuel + 1, n =>
    if n < 10 then [digitToChar n]
    else natToStrAux fuel (n / 10) ++ [digitToChar (n % 10)]

/-- Python `str(n)`. -/
def natToStr (n : Nat) : Str := natToStrAux (n + 1) n

theorem natToStrAux_stable : ∀ (n f g : Nat), n < f → n < g →
    natToStrAux f n = natToStrAux g n := by
  intro n
  induction n using Nat.strong_induction_on with
  | _ n ih =>
    intro f g hf hg
    match f, g with
    | f' + 1, g' + 1 =>
      by_cases h10 : n < 10
      · simp [natToStrAux, h10]
      · have hdiv : n / 10 < n := Nat.div_lt_self (by omega) (by omega)
        simp only [natToStrAux, if_neg h10]
        rw [ih (n / 10) hdiv (f') (g') (by omega) (by omega)]

theorem natToStr_step (n : Nat) (h : ¬ n < 10) :
    natToStr n = natToStr (n / 10) ++ [digitToChar (n % 10)] := by
  have hdiv : n / 10 < n := Nat.div_lt_self (by omega) (by omega)
  have h1 : natToStr n = natToStrAux n (n / 10) ++ [digitToChar (n % 10)] := by
    unfold natToStr
    rw [show natToStrAux (n + 1) n = if n < 10 then [digitToChar n]
      else natToStrAux n (n / 10) ++ [digitToChar (n % 10)] from rfl, if_neg h]
  rw [h1]
  exact congrArg (· ++ [digitToChar (n % 10)])
    (natToStrAux_stable (n / 10) n (n / 10 + 1) (by omega) (by omega))

theorem charVal_digitToChar (d : Nat) (hd : d < 10) : charVal (digitToChar d) = d := by
  interval_cases d <;> rfl

/-- Value of a decimal string, inverse of `natToStr`. -/
def vNat (s : Str) : Nat := s.foldl (fun acc c => acc * 10 + charVal c) 0

theorem vNat_append_digit (xs : Str) (c : Char) :
    vNat (xs ++ [c]) = vNat xs * 10 + charVal c := by
  simp [vNat, List.foldl_append]

theorem vNat_natToStr : ∀ n : Nat, vNat (natToStr n) = n := by
  intro n
  induction n using Nat.strong_induction_on with
  | _ n ih =>
    by_cases h10 : n < 10
    · unfold natToStr
      simp only [natToStrAux, if_pos h10]
      simp [vNat, charVal_digitToChar n h10]
    · have hdiv : n / 10 < n := Nat.div_lt_self (by omega) (by omega)
      rw [natToStr_step n h10, vNat_append_digit, ih (n / 10) hdiv,
        charVal_digitToChar (n % 10) (Nat.mod_lt n (by omega))]
      omega

theorem natToStr_inj {m n : Nat} (h : natToStr m = natToStr n) : m = n := by
  have := congrArg vNat h
  rwa [vNat_natToStr, vNat_natToStr] at this

/-- The `extensions` table of `get_extension`, source lines 97-104. -/
def extensions : List (Str × Str) :=
  [ (str "python", str ".py"), (str "javascript", str ".js"), (str "typescript", str ".ts"),
    (str "java", str ".java"), (str "csharp", str ".cs"), (str "txt", str ".txt") ]

/-- The language-to-extension map `get_extension`, source lines 95-105:
table lookup, else a dot followed by the language tag. -/
def get_extension (lang : Str) : Str :=
  match extensions.find? (fun pr => pr.1 == lang) with
  | some pr => pr.2
  | none => '.' :: lang

/-- The base name of `generate_filename`, source line 83:
`'_'.join(block['keywords'][:3]) or 'code'` (the literal `code` is used
exactly when the join is the empty string, Python's falsiness test). -/
def base_name (b : Block) : Str :=
  let j := joinSep (str "_") (b.keywords.take 3)
  if j = [] then str "code" else j

/-- The n-th candidate file name probed by the collision loop of
`generate_filename`: `base+ext` first, then `base_n+ext` for n = 1, 2,
and so on (source lines 85-91). -/
def candidate (base ext : Str) : Nat → Str
  | 0 => base ++ ext
  | n + 1 => base ++ '_' :: (natToStr (n + 1) ++ ext)

/-- The `while (dest_dir / filename).exists()` loop of
`generate_filename`, source lines 88-91, probing candidates in order.
One unit of fuel is spent per probe; `none` means the fuel ran out
(shown never to happen with `|existing| + 1` fuel, claim C8). -/
def genLoop (base ext : Str) (existing : List Str) : Nat → Nat → Option Str
  | 0, _ => none
  | fuel + 1, k =>
    if candidate base ext k ∈ existing then genLoop base ext existing fuel (k + 1)
    else some (candidate base ext k)

/-- The namer `generate_filename`, source lines 81-93.  `existing` is
the list of entry names present in the destination directory; the
`getD` default is dead code kept only to make the function total. -/
def generate_filename (b : Block) (existing : List Str) : Str :=
  (genLoop (base_name b) (get_extension b.language) existing (existing.length + 1) 0).getD
    (base_name b ++ get_extension b.language)

theorem candidate_inj (base ext : Str) :
    ∀ m n : Nat, candidate base ext m = candidate base ext n → m = n := by
  have hlen : ∀ k : Nat, (candidate base ext (k + 1)).length =
      base.length + 1 + (natToStr (k + 1)).length + ext.length := by
    intro k
    simp [candidate, List.length_append]
    omega
  intro m n h
  match m, n with
  | 0, 0 => rfl
  | 0, n + 1 =>
    have := congrArg List.length h
    rw [hlen n] at this
    simp only [candidate, List.length_append] at this
    omega
  | m + 1, 0 =>
    have := congrArg List.length h
    rw [hlen m] at this
    simp only [candidate, List.length_append] at this
    omega
  | m + 1, n + 1 =>
    simp only [candidate] at h
    have h1 := List.append_cancel_left h
    simp only [List.cons.injEq, true_and] at h1
    have h2 := List.append_cancel_right h1
    rw [natToStr_inj h2]

theorem nodup_subset_length {α : Type} [DecidableEq α] {l₁ l₂ : List α}
    (h : l₁.Nodup) (hs : l₁ ⊆ l₂) : l₁.length ≤ l₂.length := by
  calc l₁.length = l₁.toFinset.card := (List.toFinset_card_of_nodup h).symm
    _ ≤ l₂.toFinset.card := Finset.card_le_card (fun x hx => by
        simp only [List.mem_toFinset] at hx ⊢
        exact hs hx)
    _ ≤ l₂.length := l₂.toFinset_card_le

theorem exists_free (base ext : Str) (existing : List Str) :
    ∃ n, n ≤ existing.length ∧ candidate base ext n ∉ existing := by
  by_contra hcon
  push_neg at hcon
  have hsub : ((List.range (existing.length + 1)).map (candidate base ext)) ⊆ existing := by
    intro x hx
    rw [List.mem_map] at hx
    obtain ⟨n, hn, rfl⟩ := hx
    rw [List.mem_range] at hn
    exact hcon n (by omega)
  have hnd : ((List.range (existing.length + 1)).map (candidate base ext)).Nodup := by
    refine List.Nodup.map_on ?_ (List.nodup_range _)
    intro m _ n _ hmn
    exact candidate_inj base ext m n hmn
  have := nodup_subset_length hnd hsub
  simp only [List.length_map, List.length_range] at this
  omega

theorem exists_not_mem_candidate (base ext : Str) (existing : List Str) :
    ∃ n, candidate base ext n ∉ existing :=
  (exists_free base ext existing).imp (fun _ h => h.2)

/-- The least index whose candidate name is free in the directory. -/
def leastFree (base ext : Str) (existing : List Str) : Nat :=
  Nat.find (exists_not_mem_candidate base ext existing)

/-- Spec §4.4 wording of the base name: the first three keywords joined
with underscores, or the literal `code` when there are zero keywords. -/
def specBase (b : Block) : Str :=
  if b.keywords = [] then str "code" else joinSep (str "_") (b.keywords.take 3)

/-- Spec §4.4 wording of the namer result: the candidate of least index
that is not already present in the destination directory (the extension
table of the spec is word for word the `extensions` table of the code,
so `get_extension` is shared). -/
def specFilename (b : Block) (existing : List Str) : Str :=
  candidate (specBase b) (get_extension b.language)
    (leastFree (specBase b) (get_extension b.language) existing)

theorem genLoop_finds (base ext : Str) (existing : List Str) :
    ∀ (fuel k n : Nat), k ≤ n → candidate base ext n ∉ existing →
      (∀ m, k ≤ m → m < n → candidate base ext m ∈ existing) → n < k + fuel →
      genLoop base ext existing fuel k = some (candidate base ext n) := by
  intro fuel
  induction fuel with
  | zero => intro k n h1 _ _ h4; omega
  | succ fuel ih =>
    intro k n h1 h2 h3 h4
    by_cases hk : candidate base ext k ∈ existing
    · have hkn : k < n := by
        rcases Nat.lt_or_ge k n with h | h
        · exact h
        · have hke : k = n := by omega
          rw [hke] at hk
          exact absurd hk h2
      simp only [genLoop, if_pos hk]
      exact ih (k + 1) n (by omega) h2 (fun m hm1 hm2 => h3 m (by omega) hm2) (by omega)
    · have hkn : k = n := by
        by_contra hne
        exact hk (h3 k (Nat.le_refl k) (by omega))
      simp only [genLoop, if_neg hk]
      rw [hkn]

theorem joinSep_ne_nil (sep : Str) : ∀ (x : Str) (rest : List Str), x ≠ [] →
    joinSep sep (x :: rest) ≠ [] := by
  intro x rest hx
  cases rest with
  | nil => simpa [joinSep] using hx
  | cons y ys =>
    simp only [joinSep]
    cases x with
    | nil => exact absurd rfl hx
    | cons c cs => simp

theorem base_name_eq_specBase (b : Block) (hk : ∀ k ∈ b.keywords, k ≠ ([] : Str)) :
    base_name b = specBase b := by
  cases hkw : b.keywords with
  | nil => simp [base_name, specBase, hkw, joinSep]
  | cons x rest =>
    have hx : x ≠ [] := hk x (by rw [hkw]; exact List.mem_cons_self _ _)
    have hne : joinSep (str "_") ((x :: rest).take 3) ≠ [] := by
      cases rest with
      | nil => simpa [joinSep] using hx
      | cons y ys =>
        simp only [List.take]
        exact joinSep_ne_nil (str "_") x _ hx
    simp only [base_name, specBase, hkw]
    rw [if_neg hne, if_neg (List.cons_ne_nil x rest)]

/-- C2: for every block with (derived, hence nonempty) keywords and
every finite list of existing directory entries, the generated name is
not among the existing entries, and it equals the spec's description:
the least-index free candidate over base `specBase` (first three
keywords joined by underscores, or `code`) and the table extension. -/
theorem claim_C2_filename (b : Block) (existing : List Str)
    (hk : ∀ k ∈ b.keywords, k ≠ ([] : Str)) :
    generate_filename b existing ∉ existing ∧
    generate_filename b existing = specFilename b existing := by
  have hbase := base_name_eq_specBase b hk
  set base := specBase b with hbdef
  set ext := get_extension b.language with hedef
  have hfree : candidate base ext (leastFree base ext existing) ∉ existing :=
    Nat.find_spec (exists_not_mem_candidate base ext existing)
  have hmin : ∀ m, m < leastFree base ext existing → candidate base ext m ∈ existing := by
    intro m hm
    have := Nat.find_min (exists_not_mem_candidate base ext existing) hm
    exact not_not.mp this
  have hle : leastFree base ext existing ≤ existing.length := by
    obtain ⟨n, hn1, hn2⟩ := exists_free base ext existing
    exact le_trans (Nat.find_min' _ hn2) hn1
  have hloop := genLoop_finds base ext existing (existing.length + 1) 0
    (leastFree base ext existing) (Nat.zero_le _) hfree
    (fun m _ hm => hmin m hm) (by omega)
  unfold generate_filename specFilename
  rw [hbase, ← hbdef, ← hedef, hloop]
  exact ⟨hfree, rfl⟩

theorem claim_C2_filename_witness :
    (∀ k ∈ (Block.mk (str "python") (str "api client call")
        [str "api", str "client", str "call", str "extra"]).keywords, k ≠ ([] : Str)) ∧
    (generate_filename (Block.mk (str "python") (str "api client call")
        [str "api", str "client", str "call", str "extra"]) [str "api_client_call.py"]
      ∉ [str "api_client_call.py"] ∧
     generate_filename (Block.mk (str "python") (str "api client call")
        [str "api", str "client", str "call", str "extra"]) [str "api_client_call.py"]
      = specFilename (Block.mk (str "python") (str "api client call")
        [str "api", str "client", str "call", str "extra"]) [str "api_client_call.py"]) ∧
    generate_filename (Block.mk (str "python") (str "api client call")
        [str "api", str "client", str "call", str "extra"]) [str "api_client_call.py"]
      = str "api_client_call_1.py" :=
  ⟨by decide,
   claim_C2_filename (Block.mk (str "python") (str "api client call")
      [str "api", str "client", str "call", str "extra"]) [str "api_client_call.py"] (by decide),
   by decide⟩

/-- C8: the collision loop of `generate_filename` terminates on every
block and finite directory: the candidate names are pairwise distinct,
so a free candidate exists among the first `|existing| + 1`, and the
loop, spending one fuel unit per probe, returns a result instead of
exhausting its fuel. -/
theorem claim_C8_termination (b : Block) (existing : List Str) :
    (∀ m n : Nat, candidate (base_name b) (get_extension b.language) m =
        candidate (base_name b) (get_extension b.language) n → m = n) ∧
    (genLoop (base_name b) (get_extension b.language) existing
      (existing.length + 1) 0).isSome = true := by
  constructor
  · exact candidate_inj _ _
  · set base := base_name b
    set ext := get_extension b.language
    have hfree : candidate base ext (leastFree base ext existing) ∉ existing :=
      Nat.find_spec (exists_not_mem_candidate base ext existing)
    have hmin : ∀ m, m < leastFree base ext existing → candidate base ext m ∈ existing :=
      fun m hm => not_not.mp (Nat.find_min (exists_not_mem_candidate base ext existing) hm)
    have hle : leastFree base ext existing ≤ existing.length := by
      obtain ⟨n, hn1, hn2⟩ := exists_free base ext existing
      exact le_trans (Nat.find_min' _ hn2) hn1
    rw [genLoop_finds base ext existing (existing.length + 1) 0
      (leastFree base ext existing) (Nat.zero_le _) hfree (fun m _ hm => hmin m hm) (by omega)]
    rfl

theorem claim_C8_termination_witness :
    (∀ m n : Nat,
      candidate (base_name (Block.mk (str "ruby") (str "x") [str "zzz"]))
          (get_extension (str "ruby")) m =
        candidate (base_name (Block.mk (str "ruby") (str "x") [str "zzz"]))
          (get_extension (str "ruby")) n → m = n) ∧
    (genLoop (base_name (Block.mk (str "ruby") (str "x") [str "zzz"]))
      (get_extension (str "ruby")) [str "zzz.rb"] 2 0).isSome = true :=
  claim_C8_termination (Block.mk (str "ruby") (str "x") [str "zzz"]) [str "zzz.rb"]

/-- The backtick character (ASCII 96), written numerically. -/
def tick : Char := Char.ofNat 96

/-- Test for a leading triple backtick, the fence delimiter of the
regex at source line 27. -/
def startsTicks (s : Str) : Bool := s.take 3 == [tick, tick, tick]

/-- Any position of the string carries a triple backtick. -/
def containsTicks : Str → Bool
  | [] => false
  | c :: rest => startsTicks (c :: rest) || containsTicks rest

/-- First split of the input at a triple backtick: the lazy
`(?P<code>.*?)` up to the closing delimiter.  `some (code, rest)` when
the input is `code ++ ticks ++ rest` for the earliest such occurrence,
`none` when it has no triple backtick. -/
def findClose : Str → Option (Str × Str)
  | [] => none
  | c :: rest =>
    if startsTicks (c :: rest) then some ([], (c :: rest).drop 3)
    else (findClose rest).map (fun pr => (c :: pr.1, pr.2))

/-- Attempt of the fence regex at the current position: a triple
backtick, the maximal run `(?P<lang>\w+)?` of word characters, a
newline, then the lazy body up to the next triple backtick.  Yields
the tag (empty when the group did not participate), the raw body and
the input after the closing delimiter; `none` exactly when the regex
cannot match here. -/
def tryOpen (s : Str) : Option (Str × Str × Str) :=
  if startsTicks s then
    match (s.drop 3).dropWhile wordChar with
    | d :: body =>
      if d = '\n' then
        match findClose body with
        | some pr => some ((s.drop 3).takeWhile wordChar, pr.1, pr.2)
        | none => none
      else none
    | [] => none
  else none

/-- Scan of `finditer`: try the regex at each position left to right;
on a match emit it and resume after its end.  One fuel unit per step
and each step consumes at least one character, so `length + 1` fuel is
always enough. -/
def scanAux : Nat → Str → List (Str × Str)
  | 0, _ => []
  | _ + 1, [] => []
  | fuel + 1, c :: rest =>
    match tryOpen (c :: rest) with
    | some (tag, code, rest') => (tag, code) :: scanAux fuel rest'
    | none => scanAux fuel rest

/-- All raw `(lang-tag, body)` matches of the fence regex in the text. -/
def scanBlocks (s : Str) : List (Str × Str) := scanAux (s.length + 1) s

/-- Block record for one match, source lines 33-40: the language is the
group or the literal `txt`, lowercased; the content is the stripped
body; the keywords are derived from the stripped body. -/
def mkBlock (tag code : Str) : Block :=
  { language := lowerStr (if tag = [] then str "txt" else tag)
    content := pyStrip code
    keywords := extract_keywords (pyStrip code) }

/-- The extractor `extract_code_blocks`, source lines 24-42, applied to
the transcript text (reading the chat file is the text-source
boundary). -/
def extract_code_blocks (content : Str) : List Block :=
  (scanBlocks content).map (fun pr => mkBlock pr.1 pr.2)

/-- A well-formed fenced region of the transcript. -/
structure Region where
  tag : Str
  body : Str

/-- The text of a well-formed region: opening fence, tag, newline,
body, closing fence. -/
def regionText (r : Region) : Str :=
  tick :: tick :: tick :: (r.tag ++ '\n' :: (r.body ++ [tick, tick, tick]))

/-- A transcript assembled from separator texts, regions and a final
tail. -/
def assemble : List (Str × Region) → Str → Str
  | [], tail => tail
  | (sep, r) :: ps, tail => sep ++ (regionText r ++ assemble ps tail)

/-- Sanity of a separator: even with two backticks appended (the start
of a following fence) it contains no triple backtick; equivalently, no
triple backtick inside and no trailing backtick. -/
def sepOk (sep : Str) : Prop := containsTicks (sep ++ [tick, tick]) = false

/-- Sanity of a region: the tag is word characters only, and the body,
even with two backticks appended, contains no triple backtick (so the
closing fence is found exactly at the end of the body). -/
def regionOk (r : Region) : Prop :=
  r.tag.all wordChar = true ∧ containsTicks (r.body ++ [tick, tick]) = false

instance (sep : Str) : Decidable (sepOk sep) :=
  inferInstanceAs (Decidable (containsTicks (sep ++ [tick, tick]) = false))

instance (r : Region) : Decidable (regionOk r) :=
  inferInstanceAs (Decidable (r.tag.all wordChar = true ∧
    containsTicks (r.body ++ [tick, tick]) = false))

theorem startsTicks_length {s : Str} (h : startsTicks s = true) : 3 ≤ s.length := by
  unfold startsTicks at h
  have h3 := congrArg List.length (eq_of_beq h)
  simp only [List.length_take, List.length_cons, List.length_nil] at h3
  omega

theorem findClose_shrink : ∀ (s : Str) (pr : Str × Str), findClose s = some pr →
    pr.2.length + 3 ≤ s.length := by
  intro s
  induction s with
  | nil => intro pr h; simp [findClose] at h
  | cons c rest ih =>
    intro pr h
    unfold findClose at h
    by_cases hst : startsTicks (c :: rest) = true
    · rw [if_pos hst] at h
      have h3 := startsTicks_length hst
      injection h with h
      rw [← h]
      simp only [List.length_cons, List.length_drop] at h3 ⊢
      omega
    · rw [if_neg hst] at h
      cases hfc : findClose rest with
      | none => rw [hfc] at h; exact absurd h (by simp)
      | some pr' =>
        rw [hfc] at h
        have h' : some ((c :: pr'.1, pr'.2)) = some pr := h
        injection h' with h'
        have := ih pr' hfc
        rw [← h']
        simp only [List.length_cons]
        omega

theorem tryOpen_shrink (s : Str) (tag code rest' : Str)
    (h : tryOpen s = some (tag, code, rest')) : rest'.length < s.length := by
  unfold tryOpen at h
  split at h
  · rename_i hst
    have h3 := startsTicks_length hst
    split at h
    · rename_i d body hdw
      split at h
      · split at h
        · rename_i pr hfc
          injection h with h
          injection h with h1 h2
          injection h2 with h2 h3'
          have hshr := findClose_shrink body pr hfc
          rw [h3'] at hshr
          have hdwl : (d :: body).length ≤ (s.drop 3).length := by
            rw [← hdw]
            exact length_dropWhile_le wordChar (s.drop 3)
          simp only [List.length_cons, List.length_drop] at hdwl hshr ⊢
          omega
        · simp at h
      · simp at h
    · simp at h
  · simp at h

theorem scanAux_stable : ∀ (f : Nat) (s : Str) (g : Nat), s.length < f → s.length < g →
    scanAux f s = scanAux g s := by
  intro f
  induction f with
  | zero => intro s g hf; exact absurd hf (Nat.not_lt_zero _)
  | succ f ih =>
    intro s g hf hg
    match g with
    | g' + 1 =>
      cases s with
      | nil => rfl
      | cons c rest =>
        simp only [List.length_cons] at hf hg
        cases hto : tryOpen (c :: rest) with
        | none =>
          simp only [scanAux, hto]
          exact ih rest g' (by omega) (by omega)
        | some pr =>
          obtain ⟨tag, code, rest'⟩ := pr
          have hshr := tryOpen_shrink (c :: rest) tag code rest' hto
          simp only [List.length_cons] at hshr
          simp only [scanAux, hto]
          rw [ih rest' g' (by omega) (by omega)]

theorem containsTicks_cons (c : Char) (rest : Str) :
    containsTicks (c :: rest) = (startsTicks (c :: rest) || containsTicks rest) := rfl

theorem startsTicks_mid (c : Char) (a rest : Str) :
    startsTicks (c :: a ++ tick :: tick :: tick :: rest) =
      startsTicks (c :: a ++ [tick, tick]) := by
  cases a with
  | nil => rfl
  | cons d a' =>
    cases a' with
    | nil => rfl
    | cons e a'' => rfl

theorem findClose_at (rest : Str) : ∀ body : Str,
    containsTicks (body ++ [tick, tick]) = false →
    findClose (body ++ tick :: tick :: tick :: rest) = some (body, rest) := by
  intro body
  induction body with
  | nil =>
    intro _
    have hst : startsTicks (tick :: tick :: tick :: rest) = true := by
      simp [startsTicks, List.take]
    show findClose (tick :: tick :: tick :: rest) = some ([], rest)
    unfold findClose
    rw [if_pos hst]
    rfl
  | cons c body' ih =>
    intro hct
    rw [List.cons_append, containsTicks_cons, Bool.or_eq_false_iff] at hct
    have hst : startsTicks (c :: (body' ++ tick :: tick :: tick :: rest)) = false := by
      rw [← List.cons_append, startsTicks_mid c body' rest, List.cons_append]
      exact hct.1
    show findClose (c :: (body' ++ tick :: tick :: tick :: rest)) = some (c :: body', rest)
    unfold findClose
    rw [if_neg (by simp [hst]), ih hct.2]
    rfl

theorem scan_skip : ∀ sep : Str, containsTicks (sep ++ [tick, tick]) = false →
    ∀ (f : Nat) (u : Str),
      scanAux (sep.length + f) (sep ++ tick :: tick :: tick :: u) =
        scanAux f (tick :: tick :: tick :: u) := by
  intro sep
  induction sep with
  | nil => intro _ f u; simp
  | cons c sep' ih =>
    intro hsep f u
    rw [List.cons_append, containsTicks_cons, Bool.or_eq_false_iff] at hsep
    have hst : startsTicks (c :: (sep' ++ tick :: tick :: tick :: u)) = false := by
      rw [← List.cons_append, startsTicks_mid c sep' u, List.cons_append]
      exact hsep.1
    have hto : tryOpen (c :: (sep' ++ tick :: tick :: tick :: u)) = none := by
      unfold tryOpen
      rw [if_neg (by simp [hst])]
    show scanAux (sep'.length + 1 + f) (c :: (sep' ++ tick :: tick :: tick :: u)) = _
    rw [show sep'.length + 1 + f = (sep'.length + f) + 1 from by omega]
    simp only [scanAux, hto]
    exact ih hsep.2 f u

theorem scan_match (r : Region) (hr : regionOk r) (f : Nat) (rest : Str) :
    scanAux (f + 1) (regionText r ++ rest) = (r.tag, r.body) :: scanAux f rest := by
  obtain ⟨htag, hbody⟩ := hr
  have hassoc : regionText r ++ rest =
      tick :: tick :: tick ::
        (r.tag ++ '\n' :: (r.body ++ tick :: tick :: tick :: rest)) := by
    simp [regionText, List.append_assoc]
  rw [hassoc]
  have hst : startsTicks (tick :: tick :: tick ::
      (r.tag ++ '\n' :: (r.body ++ tick :: tick :: tick :: rest))) = true := by
    simp [startsTicks, List.take]
  have hsplit := takeWhile_of_all_append wordChar r.tag
    ('\n' :: (r.body ++ tick :: tick :: tick :: rest)) htag
    (Or.inr ⟨'\n', r.body ++ tick :: tick :: tick :: rest, rfl, by decide⟩)
  have hto : tryOpen (tick :: tick :: tick ::
      (r.tag ++ '\n' :: (r.body ++ tick :: tick :: tick :: rest))) =
      some (r.tag, r.body, rest) := by
    unfold tryOpen
    rw [if_pos hst]
    have hd3 : (tick :: tick :: tick ::
        (r.tag ++ '\n' :: (r.body ++ tick :: tick :: tick :: rest))).drop 3 =
        r.tag ++ '\n' :: (r.body ++ tick :: tick :: tick :: rest) := rfl
    rw [hd3, hsplit.2]
    show (if ('\n' : Char) = '\n' then
        match findClose (r.body ++ tick :: tick :: tick :: rest) with
        | some pr => some ((r.tag ++ '\n' ::
            (r.body ++ tick :: tick :: tick :: rest)).takeWhile wordChar, pr.1, pr.2)
        | none => none
      else none) = some (r.tag, r.body, rest)
    rw [if_pos rfl, findClose_at rest r.body hbody]
    show some ((r.tag ++ '\n' ::
        (r.body ++ tick :: tick :: tick :: rest)).takeWhile wordChar, r.body, rest) =
      some (r.tag, r.body, rest)
    rw [hsplit.1]
  simp only [scanAux, hto]

theorem all_dropWhile (p q : Char → Bool) : ∀ l : Str, l.all p = true →
    (l.dropWhile q).all p = true := by
  intro l
  induction l with
  | nil => intro h; exact h
  | cons c rest ih =>
    intro h
    rw [List.all_cons, Bool.and_eq_true] at h
    cases hq : q c with
    | true =>
      rw [show (c :: rest).dropWhile q = rest.dropWhile q from by simp [List.dropWhile, hq]]
      exact ih h.2
    | false =>
      rw [show (c :: rest).dropWhile q = c :: rest from by simp [List.dropWhile, hq]]
      rw [List.all_cons, Bool.and_eq_true]
      exact h

theorem mem_beq_false_of_all {u : Str} (hu : u.all (fun c => !(c == tick)) = true) :
    ∀ c ∈ u, (c == tick) = false := by
  intro c hc
  have hcp := List.all_eq_true.mp hu c hc
  cases h : c == tick with
  | false => rfl
  | true => rw [h] at hcp; exact absurd hcp (by simp)

theorem startsTicks_false_of_head {c : Char} (rest : Str) (hc : (c == tick) = false) :
    startsTicks (c :: rest) = false := by
  cases h : startsTicks (c :: rest) with
  | false => rfl
  | true =>
    exfalso
    unfold startsTicks at h
    have he := eq_of_beq h
    rw [show (c :: rest).take 3 = c :: rest.take 2 from rfl] at he
    injection he with h1 _
    rw [h1] at hc
    simp at hc

theorem findClose_none : ∀ u : Str, u.all (fun c => !(c == tick)) = true →
    findClose u = none := by
  intro u
  induction u with
  | nil => intro _; rfl
  | cons c rest ih =>
    intro hu
    have hc : (c == tick) = false :=
      mem_beq_false_of_all hu c (List.mem_cons_self _ _)
    have hrest : rest.all (fun c => !(c == tick)) = true := by
      rw [List.all_cons, Bool.and_eq_true] at hu
      exact hu.2
    unfold findClose
    rw [if_neg (by simp [startsTicks_false_of_head rest hc]), ih hrest]
    rfl

theorem scanAux_no_tick : ∀ (f : Nat) (u : Str), u.all (fun c => !(c == tick)) = true →
    scanAux f u = [] := by
  intro f
  induction f with
  | zero => intro u _; rfl
  | succ f ih =>
    intro u hu
    cases u with
    | nil => rfl
    | cons c rest =>
      have hc : (c == tick) = false :=
        mem_beq_false_of_all hu c (List.mem_cons_self _ _)
      have hrest : rest.all (fun c => !(c == tick)) = true := by
        rw [List.all_cons, Bool.and_eq_true] at hu
        exact hu.2
      have hto : tryOpen (c :: rest) = none := by
        unfold tryOpen
        rw [if_neg (by simp [startsTicks_false_of_head rest hc])]
      simp only [scanAux, hto]
      exact ih rest hrest

theorem scanBlocks_cons (sep : Str) (r : Region) (A : Str)
    (hsep : sepOk sep) (hr : regionOk r) :
    scanBlocks (sep ++ (regionText r ++ A)) = (r.tag, r.body) :: scanBlocks A := by
  unfold scanBlocks
  have hform : regionText r ++ A = tick :: tick :: tick ::
      (r.tag ++ '\n' :: (r.body ++ tick :: tick :: tick :: A)) := by
    simp [regionText, List.append_assoc]
  rw [show (sep ++ (regionText r ++ A)).length + 1 =
      sep.length + ((regionText r ++ A).length + 1) from by
    simp only [List.length_append]; omega]
  rw [hform]
  rw [scan_skip sep hsep ((tick :: tick :: tick ::
      (r.tag ++ '\n' :: (r.body ++ tick :: tick :: tick :: A))).length + 1)
      (r.tag ++ '\n' :: (r.body ++ tick :: tick :: tick :: A))]
  rw [← hform]
  rw [scan_match r hr ((regionText r ++ A).length) A]
  have hlt : A.length < (regionText r ++ A).length := by
    simp only [List.length_append, regionText, List.length_cons]
    omega
  rw [scanAux_stable ((regionText r ++ A).length) A (A.length + 1) hlt (Nat.lt_succ_self _)]

theorem scanBlocks_assemble : ∀ (ps : List (Str × Region)) (tail : Str),
    (∀ p ∈ ps, sepOk p.1 ∧ regionOk p.2) →
    scanBlocks (assemble ps tail) =
      ps.map (fun p => (p.2.tag, p.2.body)) ++ scanBlocks tail := by
  intro ps
  induction ps with
  | nil => intro tail _; simp [assemble]
  | cons p ps' ih =>
    intro tail h
    obtain ⟨sep, r⟩ := p
    have h1 := h (sep, r) (List.mem_cons_self _ _)
    show scanBlocks (sep ++ (regionText r ++ assemble ps' tail)) = _
    rw [scanBlocks_cons sep r _ h1.1 h1.2,
      ih tail (fun q hq => h q (List.mem_cons_of_mem _ hq))]
    rfl

theorem scanBlocks_tail_none (sep u : Str) (hsep : sepOk sep)
    (hu : u.all (fun c => !(c == tick)) = true) :
    scanBlocks (sep ++ tick :: tick :: tick :: u) = [] := by
  unfold scanBlocks
  rw [show (sep ++ tick :: tick :: tick :: u).length + 1 = sep.length + (u.length + 4) from by
    simp only [List.length_append, List.length_cons]; omega]
  rw [scan_skip sep hsep (u.length + 4) u]
  have hto1 : tryOpen (tick :: tick :: tick :: u) = none := by
    unfold tryOpen
    have hst : startsTicks (tick :: tick :: tick :: u) = true := by
      simp [startsTicks, List.take]
    rw [if_pos hst]
    have hd3 : (tick :: tick :: tick :: u).drop 3 = u := rfl
    rw [hd3]
    cases hdw : u.dropWhile wordChar with
    | nil => rfl
    | cons d body =>
      have hbody : body.all (fun c => !(c == tick)) = true := by
        have hall := all_dropWhile (fun c => !(c == tick)) wordChar u hu
        rw [hdw, List.all_cons, Bool.and_eq_true] at hall
        exact hall.2
      by_cases hd : d = '\n'
      · show (if d = '\n' then
            match findClose body with
            | some pr => some (u.takeWhile wordChar, pr.1, pr.2)
            | none => none
          else none) = none
        rw [if_pos hd, findClose_none body hbody]
      · show (if d = '\n' then
            match findClose body with
            | some pr => some (u.takeWhile wordChar, pr.1, pr.2)
            | none => none
          else none) = none
        rw [if_neg hd]
  have hst2 : startsTicks (tick :: tick :: u) = false := by
    cases u with
    | nil => decide
    | cons c u' =>
      cases h : startsTicks (tick :: tick :: c :: u') with
      | false => rfl
      | true =>
        exfalso
        unfold startsTicks at h
        have he := eq_of_beq h
        injection he with _ he
        injection he with _ he
        injection he with he _
        have hc := mem_beq_false_of_all hu c (List.mem_cons_self _ _)
        rw [he] at hc
        simp at hc
  have hst3 : startsTicks (tick :: u) = false := by
    cases u with
    | nil => decide
    | cons c u' =>
      cases h : startsTicks (tick :: c :: u') with
      | false => rfl
      | true =>
        exfalso
        unfold startsTicks at h
        have he := eq_of_beq h
        injection he with _ he
        injection he with he _
        have hc := mem_beq_false_of_all hu c (List.mem_cons_self _ _)
        rw [he] at hc
        simp at hc
  have hto2 : tryOpen (tick :: tick :: u) = none := by
    unfold tryOpen
    rw [if_neg (by simp [hst2])]
  have hto3 : tryOpen (tick :: u) = none := by
    unfold tryOpen
    rw [if_neg (by simp [hst3])]
  rw [show u.length + 4 = (u.length + 3) + 1 from rfl]
  simp only [scanAux, hto1, hto2, hto3]
  exact scanAux_no_tick (u.length + 1) u hu

/-- C3: a transcript assembled from N well-formed fenced regions
(separated by fence-free text) followed by an unterminated fenced
region yields exactly the N blocks of the well-formed regions, in
document order; the unterminated region contributes no block. -/
theorem claim_C3_extraction (ps : List (Str × Region)) (sep' u : Str)
    (hps : ∀ p ∈ ps, sepOk p.1 ∧ regionOk p.2)
    (hsep : sepOk sep')
    (hu : u.all (fun c => !(c == tick)) = true) :
    extract_code_blocks (assemble ps (sep' ++ tick :: tick :: tick :: u)) =
      ps.map (fun p => mkBlock p.2.tag p.2.body) ∧
    (extract_code_blocks (assemble ps (sep' ++ tick :: tick :: tick :: u))).length =
      ps.length := by
  have hmain : extract_code_blocks (assemble ps (sep' ++ tick :: tick :: tick :: u)) =
      ps.map (fun p => mkBlock p.2.tag p.2.body) := by
    unfold extract_code_blocks
    rw [scanBlocks_assemble ps _ hps, scanBlocks_tail_none sep' u hsep hu]
    simp [List.map_map]
  exact ⟨hmain, by rw [hmain]; simp⟩

theorem claim_C3_extraction_witness :
    (∀ p ∈ [((str "Here: "), Region.mk (str "python") (str "x = 1\n")),
            ((str "\nand\n"), Region.mk ([] : Str) (str "raw\n"))],
      sepOk p.1 ∧ regionOk p.2) ∧
    sepOk (str " junk ") ∧
    ((str "python\nnope").all (fun c => !(c == tick)) = true) ∧
    (extract_code_blocks (assemble
        [((str "Here: "), Region.mk (str "python") (str "x = 1\n")),
         ((str "\nand\n"), Region.mk ([] : Str) (str "raw\n"))]
        ((str " junk ") ++ tick :: tick :: tick :: (str "python\nnope"))) =
      [mkBlock (str "python") (str "x = 1\n"), mkBlock ([] : Str) (str "raw\n")] ∧
     (extract_code_blocks (assemble
        [((str "Here: "), Region.mk (str "python") (str "x = 1\n")),
         ((str "\nand\n"), Region.mk ([] : Str) (str "raw\n"))]
        ((str " junk ") ++ tick :: tick :: tick :: (str "python\nnope")))).length = 2) :=
  ⟨by decide, by decide, by decide,
    claim_C3_extraction
      [((str "Here: "), Region.mk (str "python") (str "x = 1\n")),
       ((str "\nand\n"), Region.mk ([] : Str) (str "raw\n"))]
      (str " junk ") (str "python\nnope") (by decide) (by decide) (by decide)⟩

/-- A path at the file-system boundary, as a list of components. -/
abbrev Path := List Str

/-- Split of a category string on slashes (dropping empty components),
as `pathlib` division behaves: `out / "uncategorized/ruby"` has the
components of `out` followed by `uncategorized` and `ruby`, and
`out / ""` is `out` itself. -/
def joinPath (root : Path) (rel : Str) : Path :=
  root ++ ((splitOnChar '/' rel).filter (fun s => !s.isEmpty))

/-- File-system state at the sink boundary: the files written (path and
byte content, in write order) and the directories created. -/
structure FS where
  files : List (Path × Str)
  dirs : List Path

/-- Nonempty initial segments of a path: the directories that
`mkdir(parents=True)` ensures exist. -/
def ancestors (p : Path) : List Path :=
  (List.range p.length).map (fun i => p.take (i + 1))

/-- The `dest_dir.mkdir(parents=True, exist_ok=True)` call of
`organize_code`, source line 52: create the directory and any missing
ancestors, never failing when they exist. -/
def mkdirParents (st : FS) (p : Path) : FS :=
  { st with dirs := st.dirs ++ (ancestors p).filter (fun d => !(st.dirs.contains d)) }

/-- Remove `dir` as a leading segment of `p`, if it is one. -/
def stripDir : Path → Path → Option Path
  | [], p => some p
  | _ :: _, [] => none
  | d :: ds, q :: qs => if d = q then stripDir ds qs else none

/-- The name of `p` as a direct child of `dir`, when it is one. -/
def childName (dir p : Path) : Option Str :=
  match stripDir dir p with
  | some [n] => some n
  | _ => none

/-- The entry names that `(dest_dir / filename).exists()` can observe
in `dest_dir`: files and directories lying directly inside it. -/
def entriesAt (st : FS) (dir : Path) : List Str :=
  (st.files.map Prod.fst ++ st.dirs).filterMap (childName dir)

/-- One iteration of the loop of `organize_code`, source lines 46-59:
classify the block, create the category directory, pick a unique name
against the directory's current contents, write the content. -/
def writeBlock (outDir : Path) (st : FS) (b : Block) : FS :=
  let dir := joinPath outDir (determine_category b)
  let st1 := mkdirParents st dir
  let name := generate_filename b (entriesAt st1 dir)
  { st1 with files := st1.files ++ [(dir ++ [name], b.content)] }

/-- The materializer `organize_code`, source lines 44-59. -/
def organize_code (outDir : Path) (blocks : List Block) (st : FS) : FS :=
  blocks.foldl (writeBlock outDir) st

/-- The entry point `process_chat`, source lines 19-22; the transcript
string stands for the contents of the chat file. -/
def process_chat (outDir : Path) (transcript : Str) (st : FS) : FS :=
  organize_code outDir (extract_code_blocks transcript) st

/-- C10: a transcript from which no code block is extracted makes
`process_chat` a no-op on the file system: no file is written and no
directory is created, not even the output root, because both effects
happen only inside the per-block loop. -/
theorem claim_C10_no_blocks_no_writes (outDir : Path) (t : Str) (st : FS)
    (h : extract_code_blocks t = []) : process_chat outDir t st = st := by
  unfold process_chat organize_code
  rw [h]
  rfl

theorem claim_C10_no_blocks_no_writes_witness :
    extract_code_blocks (str "just words, ` and `` but no fence") = [] ∧
    process_chat [str "organized_code"] (str "just words, ` and `` but no fence")
        (FS.mk [([str "keep"], str "old")] [[str "keep"]]) =
      FS.mk [([str "keep"], str "old")] [[str "keep"]] :=
  ⟨by decide,
    claim_C10_no_blocks_no_writes [str "organized_code"]
      (str "just words, ` and `` but no fence")
      (FS.mk [([str "keep"], str "old")] [[str "keep"]]) (by decide)⟩

theorem writeBlock_files (outDir : Path) (st : FS) (b : Block) :
    (writeBlock outDir st b).files = st.files ++
      [(joinPath outDir (determine_category b) ++
          [generate_filename b (entriesAt (mkdirParents st
            (joinPath outDir (determine_category b)))
            (joinPath outDir (determine_category b)))], b.content)] := rfl

theorem organize_code_files (outDir : Path) : ∀ (blocks : List Block) (st : FS),
    ∃ L : List (Path × Str), (organize_code outDir blocks st).files = st.files ++ L ∧
      L.map Prod.snd = blocks.map Block.content := by
  intro blocks
  induction blocks with
  | nil => exact fun st => ⟨[], by simp [organize_code], rfl⟩
  | cons b bs ih =>
    intro st
    obtain ⟨L, h1, h2⟩ := ih (writeBlock outDir st b)
    refine ⟨(joinPath outDir (determine_category b) ++
        [generate_filename b (entriesAt (mkdirParents st
          (joinPath outDir (determine_category b)))
          (joinPath outDir (determine_category b)))], b.content) :: L, ?_, ?_⟩
    · show (organize_code outDir bs (writeBlock outDir st b)).files = _
      rw [h1, writeBlock_files]
      simp
    · simp only [List.map_cons, h2]

/-- C7: round trip; for a transcript assembled from well-formed fenced
regions, the contents written by the pipeline are, file by file and in
order, exactly the whitespace-trimmed bodies captured between the
fences, with no further transformation. -/
theorem claim_C7_roundtrip (outDir : Path) (st : FS) (ps : List (Str × Region))
    (hps : ∀ p ∈ ps, sepOk p.1 ∧ regionOk p.2) :
    ∃ L : List (Path × Str),
      (process_chat outDir (assemble ps []) st).files = st.files ++ L ∧
      L.map Prod.snd = ps.map (fun p => pyStrip p.2.body) := by
  obtain ⟨L, h1, h2⟩ := organize_code_files outDir (extract_code_blocks (assemble ps [])) st
  refine ⟨L, h1, ?_⟩
  rw [h2]
  have hext : extract_code_blocks (assemble ps []) =
      ps.map (fun p => mkBlock p.2.tag p.2.body) := by
    unfold extract_code_blocks
    rw [scanBlocks_assemble ps [] hps]
    rw [show scanBlocks ([] : Str) = [] from rfl]
    simp [List.map_map]
  rw [hext]
  simp [List.map_map, mkBlock]

theorem claim_C7_roundtrip_witness :
    (∀ p ∈ [((str "say: "), Region.mk (str "js") (str "  f()  "))],
      sepOk p.1 ∧ regionOk p.2) ∧
    ∃ L : List (Path × Str),
      (process_chat [str "organized_code"]
        (assemble [((str "say: "), Region.mk (str "js") (str "  f()  "))] [])
        (FS.mk [] [])).files = ([] : List (Path × Str)) ++ L ∧
      L.map Prod.snd = [pyStrip (str "  f()  ")] :=
  ⟨by decide,
    claim_C7_roundtrip [str "organized_code"] (FS.mk [] [])
      [((str "say: "), Region.mk (str "js") (str "  f()  "))] (by decide)⟩

theorem joinPath_empty (root : Path) : joinPath root [] = root := by
  simp [joinPath, splitOnChar]

/-- C9: when the first hint-firing line of a block has nothing (after
trimming) between its first hash and the next hash or end of line, the
classifier returns the empty category, and the materializer then
writes the block's file directly into the output root directory (the
path join with the empty category is the root itself). -/
theorem claim_C9_empty_hint (b : Block) (pre post : List Str) (line : Str)
    (outDir : Path) (st : FS)
    (hsplit : splitOnChar '\n' b.content = pre ++ line :: post)
    (hpre : ∀ l ∈ pre, hintFires l = false)
    (hline : hintFires line = true)
    (hempty : specHintToken line = []) :
    determine_category b = [] ∧
    ∃ name : Str, (organize_code outDir [b] st).files =
      st.files ++ [(outDir ++ [name], b.content)] := by
  have hdc : determine_category b = [] := by
    unfold determine_category
    rw [hsplit, find?_eq_some_of_split pre line post hpre hline]
    show hintValue line = []
    rw [hintValue_eq_specHintToken, hempty]
  refine ⟨hdc, ?_⟩
  refine ⟨generate_filename b (entriesAt (mkdirParents st
    (joinPath outDir (determine_category b))) (joinPath outDir (determine_category b))), ?_⟩
  show (writeBlock outDir st b).files = _
  rw [writeBlock_files, hdc, joinPath_empty]

theorem claim_C9_empty_hint_witness :
    (splitOnChar '\n' (str "x##tests") = [] ++ (str "x##tests") :: []) ∧
    hintFires (str "x##tests") = true ∧
    specHintToken (str "x##tests") = [] ∧
    (determine_category (Block.mk (str "python") (str "x##tests") []) = [] ∧
     ∃ name : Str,
      (organize_code [str "organized_code"]
        [Block.mk (str "python") (str "x##tests") []] (FS.mk [] [])).files =
        ([] : List (Path × Str)) ++ [([str "organized_code"] ++ [name],
          (Block.mk (str "python") (str "x##tests") []).content)]) :=
  ⟨by decide, by decide, by decide,
    claim_C9_empty_hint (Block.mk (str "python") (str "x##tests") []) [] []
      (str "x##tests") [str "organized_code"] (FS.mk [] [])
      (by decide) (by decide) (by decide) (by decide)⟩

end CodeOrganizer
